import Mathlib

set_option maxRecDepth 100000

/-!
Verification development for a minimal JSON value library written in C
(decoder, encoder, chained bump-pointer arena, generic growable buffer).
The C sources are embedded shallowly:

* machine pointers become (block index, byte offset) pairs or plain lists;
* the `double` accumulator of the number decoder becomes the exact decimal
  scalar `Dec` (integer numerator over a power of ten), in which every
  operation the decoder performs is exact;
* `StringView` becomes a list of characters consumed from the front;
* out-of-bounds reads of the view (`*str->ptr` with `len == 0`, undefined
  behavior in C) and unbounded recursion are explicit `Undef` outcomes.
-/

namespace JsonC

/-- Mirrors `align`: rounds `addr` up to the next multiple of `alignment`. -/
def align (addr alignment : ℕ) : ℕ :=
  let rem := addr % alignment
  if rem = 0 then addr else (addr - rem) + alignment

/-- One arena block: capacity, bytes used, and the pool contents (`mem i` is the
byte at offset `i`).  Mirrors `struct Arena`; the `next` link is represented by
the position in a list of blocks. -/
structure Block where
  cap : ℕ
  used : ℕ
  mem : ℕ → ℕ

/-- Mirrors `arena_new`: capacity aligned to 8 and zero `used`; the pool comes
from `malloc`, so its initial bytes are the arbitrary garbage `g`. -/
def arena_new (g : ℕ → ℕ) (cap : ℕ) : Block :=
  { cap := align cap 8, used := 0, mem := g }

/-- Mirrors `memset(ptr, 0, size)` at byte offset `off` of a pool. -/
def memset0 (m : ℕ → ℕ) (off size : ℕ) : ℕ → ℕ :=
  fun i => if off ≤ i ∧ i < off + size then 0 else m i

/-- Mirrors `arena_alloc`.  The chain of blocks is a list whose head is the arena
passed in; the result is the updated chain together with the block index and
byte offset of the returned pointer.  The C function recurses without bound when
a request never fits, so the model takes fuel: `none` means either the fuel ran
out (the C code would still be recursing) or the arena pointer was NULL (the
`assert`).  Fresh blocks are created by `arena_new` at the current block's
capacity, exactly as in the source, and the requested size is re-aligned on
every recursive call just as the callee re-executes `size = align(size, 8)`. -/
def arena_alloc (g : ℕ → ℕ) : ℕ → List Block → ℕ → Option (List Block × ℕ × ℕ)
  | 0, _, _ => none
  | _ + 1, [], _ => none
  | fuel + 1, b :: rest, size0 =>
    let size := align size0 8
    if b.used + size < b.cap then
      some ({ b with used := b.used + size, mem := memset0 b.mem b.used size } :: rest,
            0, b.used)
    else
      let rest2 := if rest.isEmpty then [arena_new g b.cap] else rest
      match arena_alloc g fuel rest2 size with
      | none => none
      | some (chain, idx, off) => some (b :: chain, idx + 1, off)

/-- Growable-buffer state at the byte level: `len` elements of some fixed width
live in the raw storage `bytes`.  Mirrors the `Array(T)` struct `{len, cap, ptr}`,
with the storage spelled out so the growth copy can be examined byte by byte. -/
structure GArray where
  len : ℕ
  cap : ℕ
  bytes : List ℕ
  deriving Repr, DecidableEq

/-- Writes the bytes `src` into `dst` starting at byte offset `off`. -/
def write_bytes (dst : List ℕ) (off : ℕ) (src : List ℕ) : List ℕ :=
  dst.take off ++ src ++ dst.drop (off + src.length)

/-- Mirrors the `array_append` macro for elements of `w` bytes each
(`ARRAY_INIT_CAP = 10`, doubling growth).  On growth the new region comes zeroed
from `arena_alloc` (which runs `memset`), and the copy is
`memmove(dst, (arr)->ptr, (arr)->len)` — the source copies `len` BYTES, not
`len * sizeof(element)` bytes; the model reproduces that byte count exactly. -/
def array_append (w : ℕ) (a : GArray) (item : List ℕ) : GArray :=
  if a.cap < a.len + 1 then
    let newCap := if a.cap = 0 then 10 else a.cap * 2
    let dst := List.replicate (newCap * w) 0
    let moved := if 0 < a.len then write_bytes dst 0 (a.bytes.take a.len) else dst
    { len := a.len + 1, cap := newCap, bytes := write_bytes moved (a.len * w) item }
  else
    { len := a.len + 1, cap := a.cap, bytes := write_bytes a.bytes (a.len * w) item }

/-- Reads element `i` back from the buffer: the `w` bytes at offset `i * w`. -/
def read_elem (w : ℕ) (a : GArray) (i : ℕ) : List ℕ :=
  (a.bytes.drop (i * w)).take w

/-- Appends a list of `w`-byte items in order to a buffer. -/
def append_all (w : ℕ) (a : GArray) (items : List (List ℕ)) : GArray :=
  items.foldl (array_append w) a

/-- Exact decimal scalar `n / 10 ^ e`: the model of the C `double` accumulator of
`decode_json_number`.  Every operation the decoder performs on the accumulator
(`value * 10 + digit`, `value + pow(10, -k) * digit`, negation) is exact in this
representation, so the embedding idealizes only the IEEE rounding of those
operations, never the algorithm itself. -/
structure Dec where
  n : ℤ
  e : ℕ
  deriving Repr, DecidableEq

/-- Rational value of a decimal scalar. -/
def Dec.toRat (x : Dec) : ℚ := (x.n : ℚ) / 10 ^ x.e

/-- Mirrors `num = num * 10 + d`. -/
def Dec.mul10add (x : Dec) (d : ℕ) : Dec := ⟨x.n * 10 + d * 10 ^ x.e, x.e⟩

/-- Mirrors `num = num + pow(10, -fraction_count) * d`; on the decoder's path
`x.e ≤ k` always holds, the other branch merely keeps the function total. -/
def Dec.addFrac (x : Dec) (d k : ℕ) : Dec :=
  if x.e ≤ k then ⟨x.n * 10 ^ (k - x.e) + d, k⟩ else ⟨x.n + d * 10 ^ (x.e - k), x.e⟩

/-- Mirrors `num *= -1`. -/
def Dec.neg (x : Dec) : Dec := ⟨x.n * -1, x.e⟩

/-- Drops trailing `0` characters. -/
def trim_zeros (s : List Char) : List Char :=
  (s.reverse.dropWhile (fun c => c = '0')).reverse

/-- Number of decimal digits of `n` (one for `0`). -/
def num_digits (n : ℕ) : ℕ := (Nat.toDigits 10 n).length

/-- Decides `10 ^ x ≤ nn / dd` for a positive fraction by cross multiplication. -/
def pow10_le (x : ℤ) (nn dd : ℕ) : Bool :=
  if 0 ≤ x then decide (10 ^ x.toNat * dd ≤ nn) else decide (dd ≤ 10 ^ (-x).toNat * nn)

/-- Decimal exponent (floor of the base-10 logarithm) of the positive fraction
`nn / dd`. -/
def exp10 (nn dd : ℕ) : ℤ :=
  let a : ℤ := (num_digits nn : ℤ) - 1
  let b : ℤ := (num_digits dd : ℤ) - 1
  if pow10_le (a - b) nn dd then a - b else a - b - 1

/-- Rounds `nn / dd * 10 ^ (5 - x)` to the nearest integer (half up). -/
def round_sig (nn dd : ℕ) (x : ℤ) : ℕ :=
  let e := 5 - x
  let nd := if 0 ≤ e then (nn * 10 ^ e.toNat, dd) else (nn, dd * 10 ^ (-e).toNat)
  (2 * nd.1 + nd.2) / (2 * nd.2)

/-- Two-digit rendering of an exponent, as `%g` pads exponents below ten. -/
def pad2 (n : ℕ) : List Char :=
  if n < 10 then '0' :: Nat.toDigits 10 n else Nat.toDigits 10 n

/-- Modelled from the spec: the C library `%g` conversion used by `encode_json`'s
number case (`fprintf(stream, "%g", value)`), which is library code outside the
repository.  Per the spec it is general floating-point notation with a default of
six significant digits, trailing zeros trimmed, switching to exponential form for
very large or very small magnitudes.  Here it is applied to the exact positive
fraction `nn / dd`: round to six significant digits, then use fixed notation when
the decimal exponent lies in `[-4, 5]` and exponential notation otherwise. -/
def format_g_pos (nn dd : ℕ) : List Char :=
  let x0 := exp10 nn dd
  let m0 := round_sig nn dd x0
  let mx := if m0 = 10 ^ 6 then ((10 : ℕ) ^ 5, x0 + 1) else (m0, x0)
  let m := mx.1
  let x := mx.2
  let ds := Nat.toDigits 10 m
  if x < -4 ∨ 6 ≤ x then
    let frac := trim_zeros (ds.drop 1)
    ds.take 1 ++ (if frac = [] then [] else '.' :: frac) ++
      'e' :: (if x < 0 then '-' else '+') :: pad2 x.natAbs
  else if 0 ≤ x then
    let ip := ds.take (x.toNat + 1)
    let fp := trim_zeros (ds.drop (x.toNat + 1))
    ip ++ (if fp = [] then [] else '.' :: fp)
  else
    '0' :: '.' :: (List.replicate (x.natAbs - 1) '0' ++ trim_zeros ds)

/-- Modelled from the spec: `%g` on a decimal scalar.  Zero prints `0`; a negative
value prints `-` followed by the rendering of its magnitude. -/
def format_g (v : Dec) : List Char :=
  if v.n = 0 then ['0']
  else if v.n < 0 then '-' :: format_g_pos (-v.n).toNat (10 ^ v.e)
  else format_g_pos v.n.toNat (10 ^ v.e)

/-- Tagged JSON value: `JsonType` together with its payload.  The Number payload
is the exact decimal scalar; String, Array and Object payloads are the element
sequences of their buffers. -/
inductive JsonValue where
  | null
  | jtrue
  | jfalse
  | num (x : Dec)
  | str (s : List Char)
  | arr (elems : List JsonValue)
  | obj (props : List (List Char × JsonValue))

mutual

/-- Mirrors `encode_json`, producing the character stream written to the `FILE`
sink.  Each case reproduces the exact `fprintf` templates of the source,
including the `[ `/`] ` and `\x7b `/`\x7d ` bracket spacing and the
`"key" : value` object entries. -/
def encode_json : JsonValue → List Char
  | .null => "null".toList
  | .jtrue => "true".toList
  | .jfalse => "false".toList
  | .num x => format_g x
  | .str b => '"' :: b ++ ['"']
  | .arr xs => "[ ".toList ++ encode_list xs ++ "] ".toList
  | .obj ps => "\x7b ".toList ++ encode_props ps ++ "\x7d ".toList

/-- The element loop of the Array case: a `,` follows every element except the
last (`if (i < value->len - 1)`). -/
def encode_list : List JsonValue → List Char
  | [] => []
  | [v] => encode_json v
  | v :: w :: vs => encode_json v ++ ',' :: encode_list (w :: vs)

/-- The entry loop of the Object case: each entry is `"key" : value`, with a `,`
after every entry except the last. -/
def encode_props : List (List Char × JsonValue) → List Char
  | [] => []
  | [(k, v)] => '"' :: k ++ '"' :: " : ".toList ++ encode_json v
  | (k, v) :: p :: ps =>
    '"' :: k ++ '"' :: " : ".toList ++ encode_json v ++ ',' :: encode_props (p :: ps)

end

/-- The parser cursor: the characters of the `StringView` not yet consumed. -/
abbrev SV := List Char

/-- Mirrors `is_whitespace`. -/
def is_whitespace (c : Char) : Bool :=
  c == '\n' || c == ' ' || c == '\t' || c == '\r'

/-- Mirrors `is_digit`. -/
def is_digit (c : Char) : Bool :=
  decide ('0' ≤ c ∧ c ≤ '9')

/-- Mirrors `trim_left`: consume leading whitespace. -/
def trim_left (s : SV) : SV := s.dropWhile is_whitespace

/-- Mirrors `consume_literal`: compare and consume character by character.  On a
mismatch the already-matched prefix stays consumed, exactly as the C loop leaves
the view after advancing it.  The initial length check makes every character read
in-bounds. -/
def consume_literal_go : SV → List Char → Bool × SV
  | s, [] => (true, s)
  | [], _ :: _ => (false, [])
  | c :: cs, l :: ls => if c ≠ l then (false, c :: cs) else consume_literal_go cs ls

/-- Entry point of `consume_literal`: fails up front when fewer characters remain
than the literal needs. -/
def consume_literal (s : SV) (lit : List Char) : Bool × SV :=
  if s.length < lit.length then (false, s) else consume_literal_go s lit

/-- Mirrors `JsonResult`: one uniform error, or a value. -/
inductive JsonResult where
  | err
  | ok (value : JsonValue)

/-- Outcomes the C functions never return normally: `oob` marks an out-of-bounds
read of the view (`*str->ptr` with `len == 0`, undefined behavior in C), and
`fuelOut` marks a recursion that exhausted its fuel, standing for a computation
the C program would still be running (or a stack overflow). -/
inductive Undef where
  | oob
  | fuelOut
  deriving Repr, DecidableEq

/-- Exit state of the Array and Object scanning loops: `fail` is a
`return ErrResult` taken inside the loop body, `brk` reaches the check after the
loop with the accumulated children. -/
inductive LoopOut (α : Type) where
  | fail (s : SV)
  | brk (acc : α) (s : SV)

/-- Mirrors `decode_json_null`. -/
def decode_json_null (s : SV) : JsonResult × SV :=
  let p := consume_literal s "null".toList
  if p.1 then (.ok .null, p.2) else (.err, p.2)

/-- Mirrors `decode_json_true`. -/
def decode_json_true (s : SV) : JsonResult × SV :=
  let p := consume_literal s "true".toList
  if p.1 then (.ok .jtrue, p.2) else (.err, p.2)

/-- Mirrors `decode_json_false`. -/
def decode_json_false (s : SV) : JsonResult × SV :=
  let p := consume_literal s "false".toList
  if p.1 then (.ok .jfalse, p.2) else (.err, p.2)

/-- The scanning loop of `decode_json_number`: accumulator `num`, fractional
position `fraction_count` (`fc`), flag `fraction_part` (`fp`).  A `none` first
component is the `return ErrResult` path; otherwise the loop ran to a terminator
or to the end of input and yields the accumulator.  Both come with the remaining
view. -/
def number_loop : SV → Dec → ℕ → Bool → Option Dec × SV
  | [], num, _, _ => (some num, [])
  | c :: cs, num, fc, fp =>
    if c = ',' ∨ c = ']' ∨ c = '\x7d' ∨ is_whitespace c then (some num, c :: cs)
    else if is_digit c then
      let d := c.toNat - '0'.toNat
      if fp then number_loop cs (num.addFrac d fc) (fc + 1) fp
      else number_loop cs (num.mul10add d) fc fp
    else if c = '.' ∧ fp = false then number_loop cs num fc true
    else (none, c :: cs)

/-- Mirrors `decode_json_number`: an unguarded read of `*str->ptr` (out of bounds
on empty input), an optional leading `-`, the digit loop, then negation. -/
def decode_json_number (s : SV) : Except Undef (JsonResult × SV) :=
  match s with
  | [] => .error .oob
  | c :: cs =>
    let st := if c = '-' then (true, cs) else (false, c :: cs)
    match number_loop st.2 ⟨0, 0⟩ 1 false with
    | (none, s2) => .ok (.err, s2)
    | (some num, s2) => .ok (.ok (.num (if st.1 then num.neg else num)), s2)

/-- The scanning loop of `decode_json_string`: collect raw characters until a `"`
terminates the string (first component `true`) or the input runs out
(`found_end` stays false). -/
def string_loop : SV → List Char → Bool × List Char × SV
  | [], acc => (false, acc, [])
  | c :: cs, acc =>
    if c = '"' then (true, acc, cs)
    else string_loop cs (acc ++ [c])

/-- Mirrors `decode_json_string`: an unguarded read of `*str->ptr`, the opening
quote check, then the collection loop. -/
def decode_json_string (s : SV) : Except Undef (JsonResult × SV) :=
  match s with
  | [] => .error .oob
  | c :: cs =>
    if c ≠ '"' then .ok (.err, c :: cs)
    else
      match string_loop cs [] with
      | (false, _, s2) => .ok (.err, s2)
      | (true, b, s2) => .ok (.ok (.str b), s2)

/-- Mirrors `property.key = res.value.value`, the untyped pointer read of a
decoded key.  `decode_json_string` only succeeds with a `str` payload, so the
catch-all branch is unreachable on the decoder's path. -/
def key_of : JsonValue → List Char
  | .str k => k
  | _ => []

mutual

/-- Mirrors `decode_json_value`.  The source line `if (str->len == 0) ErrResult;`
lacks a `return` and therefore has no effect: on empty (or fully trimmed) input
control falls through to `switch (*str->ptr)`, an out-of-bounds read, modelled by
the `.error .oob` branch.  The fuel decreases on every nested call and every loop
iteration; `0` yields `.error .fuelOut`. -/
def decode_json_value : ℕ → SV → Except Undef (JsonResult × SV)
  | 0, _ => .error .fuelOut
  | fuel + 1, s0 =>
    let s := trim_left s0
    match s with
    | [] => .error .oob
    | c :: cs =>
      if c = 'n' then .ok (decode_json_null (c :: cs))
      else if c = 't' then .ok (decode_json_true (c :: cs))
      else if c = 'f' then .ok (decode_json_false (c :: cs))
      else if is_digit c ∨ c = '-' then decode_json_number (c :: cs)
      else if c = '"' then decode_json_string (c :: cs)
      else if c = '[' then decode_json_array fuel (c :: cs)
      else if c = '\x7b' then decode_json_object fuel (c :: cs)
      else .ok (.err, c :: cs)

/-- Mirrors `decode_json_array`: the opening bracket check, the element loop, and
the closing `]` check, whose read `*str->ptr` is out of bounds when the loop left
nothing behind. -/
def decode_json_array : ℕ → SV → Except Undef (JsonResult × SV)
  | 0, _ => .error .fuelOut
  | fuel + 1, s =>
    match s with
    | [] => .error .oob
    | c :: cs =>
      if c ≠ '[' then .ok (.err, c :: cs)
      else
        match array_loop fuel cs [] with
        | .error u => .error u
        | .ok (.fail s2) => .ok (.err, s2)
        | .ok (.brk elems s2) =>
          match s2 with
          | [] => .error .oob
          | c2 :: cs2 =>
            if c2 ≠ ']' then .ok (.err, c2 :: cs2)
            else .ok (.ok (.arr elems), cs2)

/-- The element loop of `decode_json_array`: while input remains, trim, stop at
`]`, decode a value (failure aborts), append it, trim, and continue only past a
`,`.  The reads after trimming are out of bounds when trimming consumed the rest
of the view. -/
def array_loop : ℕ → SV → List JsonValue → Except Undef (LoopOut (List JsonValue))
  | 0, _, _ => .error .fuelOut
  | fuel + 1, s, acc =>
    if s.length = 0 then .ok (.brk acc s)
    else
      match trim_left s with
      | [] => .error .oob
      | c :: cs =>
        if c = ']' then .ok (.brk acc (c :: cs))
        else
          match decode_json_value fuel (c :: cs) with
          | .error u => .error u
          | .ok (.err, s2) => .ok (.fail s2)
          | .ok (.ok v, s2) =>
            match trim_left s2 with
            | [] => .error .oob
            | c2 :: cs2 =>
              if c2 ≠ ',' then .ok (.brk (acc ++ [v]) (c2 :: cs2))
              else array_loop fuel cs2 (acc ++ [v])

/-- Mirrors `decode_json_object`: the opening brace check, the entry loop, and
the closing brace check. -/
def decode_json_object : ℕ → SV → Except Undef (JsonResult × SV)
  | 0, _ => .error .fuelOut
  | fuel + 1, s =>
    match s with
    | [] => .error .oob
    | c :: cs =>
      if c ≠ '\x7b' then .ok (.err, c :: cs)
      else
        match object_loop fuel cs [] with
        | .error u => .error u
        | .ok (.fail s2) => .ok (.err, s2)
        | .ok (.brk props s2) =>
          match s2 with
          | [] => .error .oob
          | c2 :: cs2 =>
            if c2 ≠ '\x7d' then .ok (.err, c2 :: cs2)
            else .ok (.ok (.obj props), cs2)

/-- The entry loop of `decode_json_object`: while input remains, trim, stop at
the closing brace, decode a key string (failure aborts), require `:` as the very
next character with no trimming before it, consume it, trim, decode the value,
append the pair, trim, and continue only past a `,`. -/
def object_loop : ℕ → SV → List (List Char × JsonValue) →
    Except Undef (LoopOut (List (List Char × JsonValue)))
  | 0, _, _ => .error .fuelOut
  | fuel + 1, s, acc =>
    if s.length = 0 then .ok (.brk acc s)
    else
      match trim_left s with
      | [] => .error .oob
      | c :: cs =>
        if c = '\x7d' then .ok (.brk acc (c :: cs))
        else
          match decode_json_string (c :: cs) with
          | .error u => .error u
          | .ok (.err, s2) => .ok (.fail s2)
          | .ok (.ok kv, s2) =>
            match s2 with
            | [] => .error .oob
            | c2 :: cs2 =>
              if c2 ≠ ':' then .ok (.fail (c2 :: cs2))
              else
                match decode_json_value fuel (trim_left cs2) with
                | .error u => .error u
                | .ok (.err, s4) => .ok (.fail s4)
                | .ok (.ok v, s4) =>
                  match trim_left s4 with
                  | [] => .error .oob
                  | c3 :: cs3 =>
                    if c3 ≠ ',' then .ok (.brk (acc ++ [(key_of kv, v)]) (c3 :: cs3))
                    else object_loop fuel cs3 (acc ++ [(key_of kv, v)])

end

/-- Fuel that dominates the recursion depth of the decoder on `s`: every nested
call and loop iteration follows the consumption of at least one character, and
each consumed character accounts for at most four fuel units. -/
def decode_fuel (s : SV) : ℕ := 4 * s.length + 4

/-- Mirrors `decode_json`: run `decode_json_value` over the whole view, then fail
unless zero input remains. -/
def decode_json (s : SV) : Except Undef JsonResult :=
  match decode_json_value (decode_fuel s) s with
  | .error u => .error u
  | .ok (r, rest) => if rest.length ≠ 0 then .ok .err else .ok r

/-- Integer-part positional formula as the spec words it:
`value = value * 10 + digit`, left to right.  (Spec side, for comparison with
the decoder.) -/
def int_val (ds : List Char) : ℚ :=
  ds.foldl (fun a c => a * 10 + ((c.toNat - '0'.toNat : ℕ) : ℚ)) 0

/-- Fractional positional formula as the spec words it: the digit at 1-indexed
position `k` contributes `digit * 10 ^ (-k)`; `frac_val_from k` sums positions
`k, k+1, ...`.  (Spec side, for comparison with the decoder.) -/
def frac_val_from : ℕ → List Char → ℚ
  | _, [] => 0
  | k, c :: cs => ((c.toNat - '0'.toNat : ℕ) : ℚ) / 10 ^ k + frac_val_from (k + 1) cs

/-- Fractional positional formula starting at position 1. -/
def frac_val (fs : List Char) : ℚ := frac_val_from 1 fs

/-- Root kinds whose textual encodings end without a trailing space:
Null, True, False and String. -/
def ntfs_root : JsonValue → Bool
  | .null => true
  | .jtrue => true
  | .jfalse => true
  | .str _ => true
  | _ => false

/-- The characters at which the number loop stops: `,`, `]`, the closing brace,
or whitespace. -/
def num_term (c : Char) : Prop :=
  c = ',' ∨ c = ']' ∨ c = '\x7d' ∨ is_whitespace c

/-- The integer-phase action of the number loop on the accumulator: one
`value * 10 + digit` step per digit character, left to right. -/
def int_extend (x : Dec) (ds : List Char) : Dec :=
  ds.foldl (fun a c => a.mul10add (c.toNat - '0'.toNat)) x

/-- The fractional-phase action of the number loop on the accumulator starting
at position `k`: one `value + pow(10, -k) * digit` step per digit character. -/
def frac_extend : Dec → ℕ → List Char → Dec
  | x, _, [] => x
  | x, k, c :: cs => frac_extend (x.addFrac (c.toNat - '0'.toNat) k) (k + 1) cs

/-- Comma-joined concatenation, as the spec words the encoder templates:
elements separated by `,` with no surrounding space.  (Spec side, for comparison
with the encoder's emission loops.) -/
def join_comma (xs : List (List Char)) : List Char :=
  (List.intersperse [','] xs).flatten

/-! Helper lemmas shared by the claim theorems. -/

theorem trim_left_cons_not_ws {c : Char} (cs : SV) (h : is_whitespace c = false) :
    trim_left (c :: cs) = c :: cs := by
  simp [trim_left, List.dropWhile_cons, h]

theorem trim_left_all_ws {s : SV} (h : ∀ c ∈ s, is_whitespace c = true) :
    trim_left s = [] := by
  simpa [trim_left, List.dropWhile_eq_nil_iff] using h

theorem ws_cases {c : Char} (h : is_whitespace c = true) :
    c = '\n' ∨ c = ' ' ∨ c = '\t' ∨ c = '\r' := by
  have := h
  simp [is_whitespace] at this
  tauto

theorem ws_not_digit {c : Char} (h : is_whitespace c = true) : is_digit c = false := by
  rcases ws_cases h with rfl | rfl | rfl | rfl <;> rfl

theorem digit_not_term {c : Char} (h : is_digit c = true) : ¬ num_term c := by
  rintro (rfl | rfl | rfl | hw)
  · exact absurd h (by decide)
  · exact absurd h (by decide)
  · exact absurd h (by decide)
  · rw [ws_not_digit hw] at h; exact Bool.false_ne_true h

theorem string_loop_no_quote :
    ∀ (s : SV) (acc out : List Char) (t : SV),
      string_loop s acc = (true, out, t) → '"' ∉ acc → '"' ∉ out := by
  intro s
  induction s with
  | nil =>
    intro acc out t h _
    simp [string_loop] at h
  | cons c cs ih =>
    intro acc out t h hacc
    by_cases hc : c = '"'
    · subst hc
      simp [string_loop] at h
      rw [← h.1]
      exact hacc
    · rw [string_loop, if_neg hc] at h
      refine ih (acc ++ [c]) out t h ?_
      intro hmem
      rcases List.mem_append.mp hmem with h1 | h1
      · exact hacc h1
      · exact hc (List.mem_singleton.mp h1).symm

theorem string_loop_closes :
    ∀ (k acc : List Char) (t : SV),
      '"' ∉ k → string_loop (k ++ '"' :: t) acc = (true, acc ++ k, t) := by
  intro k
  induction k with
  | nil =>
    intro acc t _
    simp [string_loop]
  | cons c cs ih =>
    intro acc t h
    have hc : c ≠ '"' := fun hq => h (hq ▸ List.mem_cons_self c cs)
    have hcs : '"' ∉ cs := fun hq => h (List.mem_cons_of_mem c hq)
    rw [List.cons_append, string_loop, if_neg hc, ih (acc ++ [c]) t hcs]
    simp

theorem decode_json_string_closes {k : List Char} (t : SV) (h : '"' ∉ k) :
    decode_json_string ('"' :: (k ++ '"' :: t)) = .ok (.ok (.str k), t) := by
  simp [decode_json_string, string_loop_closes k [] t h]

theorem decode_json_string_no_quote {s t : SV} {b : List Char}
    (h : decode_json_string s = .ok (.ok (.str b), t)) : '"' ∉ b := by
  cases s with
  | nil => simp [decode_json_string] at h
  | cons c cs =>
    by_cases hc : c = '"'
    · subst hc
      simp only [decode_json_string, if_neg (by simp : ¬('"' : Char) ≠ '"')] at h
      cases hsl : string_loop cs [] with
      | mk fnd rest =>
        obtain ⟨out, t2⟩ := rest
        cases fnd with
        | false => rw [hsl] at h; simp at h
        | true =>
          rw [hsl] at h
          simp only [Except.ok.injEq, Prod.mk.injEq, JsonResult.ok.injEq,
            JsonValue.str.injEq] at h
          obtain ⟨hb, _⟩ := h
          rw [← hb]
          exact string_loop_no_quote cs [] out t2 hsl (by simp)
    · simp [decode_json_string, hc] at h

theorem decode_json_null_shape {s t : SV} {v : JsonValue}
    (h : decode_json_null s = (.ok v, t)) : v = .null := by
  simp only [decode_json_null] at h
  split at h
  · simp only [Prod.mk.injEq, JsonResult.ok.injEq] at h
    exact h.1.symm
  · simp at h

theorem decode_json_true_shape {s t : SV} {v : JsonValue}
    (h : decode_json_true s = (.ok v, t)) : v = .jtrue := by
  simp only [decode_json_true] at h
  split at h
  · simp only [Prod.mk.injEq, JsonResult.ok.injEq] at h
    exact h.1.symm
  · simp at h

theorem decode_json_false_shape {s t : SV} {v : JsonValue}
    (h : decode_json_false s = (.ok v, t)) : v = .jfalse := by
  simp only [decode_json_false] at h
  split at h
  · simp only [Prod.mk.injEq, JsonResult.ok.injEq] at h
    exact h.1.symm
  · simp at h

theorem decode_json_number_shape {s t : SV} {v : JsonValue}
    (h : decode_json_number s = .ok (.ok v, t)) : ∃ x, v = .num x := by
  cases s with
  | nil => simp [decode_json_number] at h
  | cons c cs =>
    simp only [decode_json_number] at h
    split at h
    · simp at h
    · simp only [Except.ok.injEq, Prod.mk.injEq, JsonResult.ok.injEq] at h
      exact ⟨_, h.1.symm⟩

theorem decode_json_string_shape {s t : SV} {v : JsonValue}
    (h : decode_json_string s = .ok (.ok v, t)) : ∃ b, v = .str b := by
  cases s with
  | nil => simp [decode_json_string] at h
  | cons c cs =>
    by_cases hc : c ≠ '"'
    · simp [decode_json_string, if_pos hc] at h
    · simp only [decode_json_string, if_neg hc] at h
      split at h
      · simp at h
      · simp only [Except.ok.injEq, Prod.mk.injEq, JsonResult.ok.injEq] at h
        exact ⟨_, h.1.symm⟩

theorem decode_json_array_shape {fuel : ℕ} {s t : SV} {v : JsonValue}
    (h : decode_json_array fuel s = .ok (.ok v, t)) : ∃ xs, v = .arr xs := by
  cases fuel with
  | zero => simp [decode_json_array] at h
  | succ n =>
    cases s with
    | nil => simp [decode_json_array] at h
    | cons c cs =>
      simp only [decode_json_array] at h
      by_cases hc : c ≠ '['
      · rw [if_pos hc] at h
        simp at h
      · rw [if_neg hc] at h
        split at h
        · simp at h
        · simp at h
        · split at h
          · simp at h
          · split at h
            · simp at h
            · simp only [Except.ok.injEq, Prod.mk.injEq, JsonResult.ok.injEq] at h
              exact ⟨_, h.1.symm⟩

theorem decode_json_object_shape {fuel : ℕ} {s t : SV} {v : JsonValue}
    (h : decode_json_object fuel s = .ok (.ok v, t)) : ∃ ps, v = .obj ps := by
  cases fuel with
  | zero => simp [decode_json_object] at h
  | succ n =>
    cases s with
    | nil => simp [decode_json_object] at h
    | cons c cs =>
      simp only [decode_json_object] at h
      by_cases hc : c ≠ '\x7b'
      · rw [if_pos hc] at h
        simp at h
      · rw [if_neg hc] at h
        split at h
        · simp at h
        · simp at h
        · split at h
          · simp at h
          · split at h
            · simp at h
            · simp only [Except.ok.injEq, Prod.mk.injEq, JsonResult.ok.injEq] at h
              exact ⟨_, h.1.symm⟩

theorem decode_json_value_str {fuel : ℕ} {s t : SV} {b : List Char}
    (h : decode_json_value fuel s = .ok (.ok (.str b), t)) :
    decode_json_string (trim_left s) = .ok (.ok (.str b), t) := by
  cases fuel with
  | zero => simp [decode_json_value] at h
  | succ n =>
    simp only [decode_json_value] at h
    cases hs : trim_left s with
    | nil => rw [hs] at h; simp at h
    | cons c cs =>
      rw [hs] at h
      dsimp only at h
      by_cases h1 : c = 'n'
      · rw [if_pos h1] at h
        simp only [Except.ok.injEq] at h
        have := decode_json_null_shape h
        simp at this
      · rw [if_neg h1] at h
        by_cases h2 : c = 't'
        · rw [if_pos h2] at h
          simp only [Except.ok.injEq] at h
          have := decode_json_true_shape h
          simp at this
        · rw [if_neg h2] at h
          by_cases h3 : c = 'f'
          · rw [if_pos h3] at h
            simp only [Except.ok.injEq] at h
            have := decode_json_false_shape h
            simp at this
          · rw [if_neg h3] at h
            by_cases h4 : is_digit c = true ∨ c = '-'
            · rw [if_pos h4] at h
              obtain ⟨x, hx⟩ := decode_json_number_shape h
              simp at hx
            · rw [if_neg h4] at h
              by_cases h5 : c = '"'
              · rw [if_pos h5] at h
                exact h
              · rw [if_neg h5] at h
                by_cases h6 : c = '['
                · rw [if_pos h6] at h
                  obtain ⟨xs, hx⟩ := decode_json_array_shape h
                  simp at hx
                · rw [if_neg h6] at h
                  by_cases h7 : c = '\x7b'
                  · rw [if_pos h7] at h
                    obtain ⟨ps, hx⟩ := decode_json_object_shape h
                    simp at hx
                  · rw [if_neg h7] at h
                    simp at h

theorem decode_json_ok_iff (s : SV) (v : JsonValue) :
    decode_json s = .ok (.ok v) ↔
      decode_json_value (decode_fuel s) s = .ok (.ok v, []) := by
  unfold decode_json
  cases hdv : decode_json_value (decode_fuel s) s with
  | error u => simp
  | ok p =>
    obtain ⟨r, rest⟩ := p
    dsimp only
    by_cases hr : rest.length = 0
    · have hnil : rest = [] := List.length_eq_zero.mp hr
      subst hnil
      simp
    · rw [if_pos hr]
      constructor
      · intro hx
        simp at hx
      · intro hx
        simp only [Except.ok.injEq, Prod.mk.injEq] at hx
        rw [hx.2] at hr
        simp at hr

theorem decode_fuel_eq_succ (s : SV) : decode_fuel s = 4 * s.length + 3 + 1 := by
  unfold decode_fuel
  omega

theorem Dec.toRat_mul10add (x : Dec) (d : ℕ) :
    (x.mul10add d).toRat = x.toRat * 10 + d := by
  unfold Dec.mul10add Dec.toRat
  have h : ((10 : ℚ) ^ x.e) ≠ 0 := by positivity
  push_cast
  field_simp

theorem Dec.addFrac_e (x : Dec) (d k : ℕ) (h : x.e ≤ k) : (x.addFrac d k).e = k := by
  rw [Dec.addFrac, if_pos h]

theorem Dec.toRat_addFrac (x : Dec) (d k : ℕ) (h : x.e ≤ k) :
    (x.addFrac d k).toRat = x.toRat + (d : ℚ) / 10 ^ k := by
  rw [Dec.addFrac, if_pos h]
  unfold Dec.toRat
  dsimp only
  have hp : (10 : ℚ) ^ (k - x.e) * 10 ^ x.e = 10 ^ k := by
    rw [← pow_add]
    congr 1
    omega
  have h1 : ((10 : ℚ) ^ x.e) ≠ 0 := by positivity
  have h2 : ((10 : ℚ) ^ k) ≠ 0 := by positivity
  push_cast
  rw [div_add_div _ _ h1 h2, div_eq_div_iff h2 (mul_ne_zero h1 h2)]
  linear_combination ((x.n : ℚ) * 10 ^ k) * hp

theorem Dec.toRat_neg (x : Dec) : x.neg.toRat = -x.toRat := by
  unfold Dec.neg Dec.toRat
  push_cast
  ring

theorem int_extend_e : ∀ (ds : List Char) (x : Dec), (int_extend x ds).e = x.e := by
  intro ds
  induction ds with
  | nil => intro x; rfl
  | cons c cs ih =>
    intro x
    rw [int_extend, List.foldl_cons]
    exact ih (x.mul10add (c.toNat - '0'.toNat))

theorem int_extend_toRat :
    ∀ (ds : List Char) (x : Dec),
      (int_extend x ds).toRat =
        ds.foldl (fun a c => a * 10 + ((c.toNat - '0'.toNat : ℕ) : ℚ)) x.toRat := by
  intro ds
  induction ds with
  | nil => intro x; rfl
  | cons c cs ih =>
    intro x
    rw [int_extend, List.foldl_cons, List.foldl_cons, ← Dec.toRat_mul10add]
    exact ih (x.mul10add (c.toNat - '0'.toNat))

theorem int_extend_zero (ds : List Char) :
    (int_extend ⟨0, 0⟩ ds).toRat = int_val ds := by
  rw [int_extend_toRat]
  unfold int_val
  congr 1
  unfold Dec.toRat
  norm_num

theorem frac_extend_toRat :
    ∀ (fs : List Char) (x : Dec) (fc : ℕ), x.e ≤ fc →
      (frac_extend x fc fs).toRat = x.toRat + frac_val_from fc fs := by
  intro fs
  induction fs with
  | nil =>
    intro x fc _
    rw [frac_extend, frac_val_from]
    ring
  | cons c cs ih =>
    intro x fc h
    rw [frac_extend, frac_val_from]
    rw [ih _ (fc + 1) (by rw [Dec.addFrac_e x _ fc h]; omega)]
    rw [Dec.toRat_addFrac x _ fc h]
    ring

theorem number_loop_term {c : Char} (t : SV) (x : Dec) (fc : ℕ) (fp : Bool)
    (h : num_term c) : number_loop (c :: t) x fc fp = (some x, c :: t) := by
  unfold num_term at h
  rw [number_loop, if_pos h]

theorem number_loop_digits_int :
    ∀ (ds : List Char) (t : SV) (x : Dec) (fc : ℕ),
      (∀ c ∈ ds, is_digit c = true) →
      number_loop (ds ++ t) x fc false = number_loop t (int_extend x ds) fc false := by
  intro ds
  induction ds with
  | nil =>
    intro t x fc _
    rw [List.nil_append, int_extend, List.foldl_nil]
  | cons c cs ih =>
    intro t x fc h
    have hc : is_digit c = true := h c (List.mem_cons_self c cs)
    have hnt : ¬ num_term c := digit_not_term hc
    unfold num_term at hnt
    rw [List.cons_append, number_loop, if_neg hnt, if_pos hc]
    dsimp only
    rw [ih t (x.mul10add (c.toNat - '0'.toNat)) fc
      (fun c2 hc2 => h c2 (List.mem_cons_of_mem c hc2))]
    have he : int_extend x (c :: cs) = int_extend (x.mul10add (c.toNat - '0'.toNat)) cs := by
      rw [int_extend, int_extend, List.foldl_cons]
    rw [he]
    simp

theorem number_loop_digits_frac :
    ∀ (fs : List Char) (t : SV) (x : Dec) (fc : ℕ),
      (∀ c ∈ fs, is_digit c = true) →
      number_loop (fs ++ t) x fc true =
        number_loop t (frac_extend x fc fs) (fc + fs.length) true := by
  intro fs
  induction fs with
  | nil =>
    intro t x fc _
    rw [List.nil_append, frac_extend]
    norm_num
  | cons c cs ih =>
    intro t x fc h
    have hc : is_digit c = true := h c (List.mem_cons_self c cs)
    have hnt : ¬ num_term c := digit_not_term hc
    unfold num_term at hnt
    rw [List.cons_append, number_loop, if_neg hnt, if_pos hc]
    dsimp only
    rw [ih t (x.addFrac (c.toNat - '0'.toNat) fc) (fc + 1)
      (fun c2 hc2 => h c2 (List.mem_cons_of_mem c hc2))]
    have he : frac_extend x fc (c :: cs) =
        frac_extend (x.addFrac (c.toNat - '0'.toNat) fc) (fc + 1) cs := rfl
    have hlen : fc + 1 + cs.length = fc + (c :: cs).length := by
      simp [List.length_cons]
      omega
    rw [he, hlen]
    simp

theorem number_loop_dot_start (t : SV) (x : Dec) (fc : ℕ) :
    number_loop ('.' :: t) x fc false = number_loop t x fc true := by
  rw [number_loop]
  rw [if_neg (by decide :
    ¬ (('.' : Char) = ',' ∨ ('.' : Char) = ']' ∨ ('.' : Char) = '\x7d' ∨
      is_whitespace '.' = true))]
  rw [if_neg (by decide : ¬ is_digit '.' = true)]
  rw [if_pos ⟨rfl, rfl⟩]

theorem number_loop_bad {c : Char} (t : SV) (x : Dec) (fc : ℕ)
    (h1 : is_digit c = false) (h2 : c ≠ '.') (h3 : ¬ num_term c) :
    number_loop (c :: t) x fc false = (none, c :: t) := by
  unfold num_term at h3
  rw [number_loop, if_neg h3]
  rw [if_neg (by rw [h1]; exact Bool.false_ne_true)]
  rw [if_neg (fun hx => h2 hx.1)]

theorem number_loop_full {ds fs : List Char} {c : Char} (rest : SV)
    (hds : ∀ x ∈ ds, is_digit x = true) (hfs : ∀ x ∈ fs, is_digit x = true)
    (hterm : num_term c) :
    number_loop (ds ++ ('.' :: (fs ++ c :: rest))) ⟨0, 0⟩ 1 false =
      (some (frac_extend (int_extend ⟨0, 0⟩ ds) 1 fs), c :: rest) := by
  rw [number_loop_digits_int ds _ _ _ hds]
  rw [number_loop_dot_start]
  rw [number_loop_digits_frac fs _ _ _ hfs]
  exact number_loop_term _ _ _ _ hterm

theorem number_val (ds fs : List Char) :
    (frac_extend (int_extend ⟨0, 0⟩ ds) 1 fs).toRat = int_val ds + frac_val fs := by
  rw [frac_extend_toRat _ _ _ (by rw [int_extend_e]; decide)]
  rw [int_extend_zero]
  rfl

theorem decode_json_number_nonminus_ok {c0 : Char} {cs s2 : SV} {num : Dec}
    (h : c0 ≠ '-') (hl : number_loop (c0 :: cs) ⟨0, 0⟩ 1 false = (some num, s2)) :
    decode_json_number (c0 :: cs) = .ok (.ok (.num num), s2) := by
  simp only [decode_json_number, if_neg h]
  rw [hl]
  rfl

theorem decode_json_number_minus_ok {cs s2 : SV} {num : Dec}
    (hl : number_loop cs ⟨0, 0⟩ 1 false = (some num, s2)) :
    decode_json_number ('-' :: cs) = .ok (.ok (.num num.neg), s2) := by
  simp [decode_json_number, hl]

theorem decode_json_number_nonminus_err {c0 : Char} {cs s2 : SV}
    (h : c0 ≠ '-') (hl : number_loop (c0 :: cs) ⟨0, 0⟩ 1 false = (none, s2)) :
    decode_json_number (c0 :: cs) = .ok (.err, s2) := by
  simp only [decode_json_number, if_neg h]
  rw [hl]

theorem align_le (a : ℕ) : a ≤ align a 8 := by
  unfold align
  dsimp only
  split <;> omega

theorem align_mod (a : ℕ) : align a 8 % 8 = 0 := by
  unfold align
  dsimp only
  split <;> omega

theorem align_eq_self {a : ℕ} (h : a % 8 = 0) : align a 8 = a := by
  unfold align
  dsimp only
  rw [if_pos h]

theorem arena_new_cap (g : ℕ → ℕ) {c : ℕ} (hc : c % 8 = 0) : (arena_new g c).cap = c := by
  rw [arena_new]
  exact align_eq_self hc

theorem arena_alloc_fresh (g : ℕ → ℕ) (c size f : ℕ) (hc : c % 8 = 0)
    (h : align size 8 < c) :
    arena_alloc g (f + 1) [arena_new g c] (align size 8) =
      some ([⟨c, align size 8, memset0 g 0 (align size 8)⟩], 0, 0) := by
  have hidem : align (align size 8) 8 = align size 8 := align_eq_self (align_mod size)
  simp only [arena_alloc, hidem]
  rw [if_pos ?fit]
  case fit =>
    show (arena_new g c).used + align size 8 < (arena_new g c).cap
    rw [arena_new_cap g hc]
    show 0 + align size 8 < c
    omega
  show some _ = some _
  congr 1
  refine Prod.ext ?_ rfl
  show ({ arena_new g c with
      used := (arena_new g c).used + align size 8,
      mem := memset0 (arena_new g c).mem (arena_new g c).used (align size 8) } :: [],
    (0 : ℕ), (arena_new g c).used).1 = _
  show ({ arena_new g c with
      used := (arena_new g c).used + align size 8,
      mem := memset0 (arena_new g c).mem (arena_new g c).used (align size 8) } :: []) = _
  congr 1
  show Block.mk (align c 8) (0 + align size 8) (memset0 g 0 (align size 8)) = _
  rw [align_eq_self hc, Nat.zero_add]

theorem encode_list_join :
    ∀ xs : List JsonValue, encode_list xs = join_comma (xs.map encode_json) := by
  intro xs
  induction xs with
  | nil => rfl
  | cons v tail ih =>
    cases tail with
    | nil =>
      show encode_json v = join_comma [encode_json v]
      simp [join_comma, List.intersperse]
    | cons w ws =>
      rw [encode_list, ih]
      show encode_json v ++ ',' :: join_comma ((w :: ws).map encode_json) =
        join_comma (encode_json v :: (w :: ws).map encode_json)
      simp [join_comma, List.intersperse]

theorem encode_props_join :
    ∀ ps : List (List Char × JsonValue),
      encode_props ps =
        join_comma (ps.map (fun p => '"' :: p.1 ++ '"' :: " : ".toList ++ encode_json p.2)) := by
  intro ps
  induction ps with
  | nil => rfl
  | cons e tail ih =>
    obtain ⟨k, v⟩ := e
    cases tail with
    | nil =>
      show '"' :: k ++ '"' :: " : ".toList ++ encode_json v = join_comma [_]
      simp [join_comma, List.intersperse]
    | cons e2 ps2 =>
      obtain ⟨k2, v2⟩ := e2
      rw [encode_props, ih]
      show '"' :: k ++ '"' :: " : ".toList ++ encode_json v ++
          ',' :: join_comma (((k2, v2) :: ps2).map _) = _
      simp [join_comma, List.intersperse]

theorem decode_json_str_redecode {b : List Char} (h : '"' ∉ b) :
    decode_json ('"' :: (b ++ ['"'])) = .ok (.ok (.str b)) := by
  rw [decode_json_ok_iff]
  rw [decode_fuel_eq_succ]
  simp only [decode_json_value]
  rw [trim_left_cons_not_ws _ (by decide)]
  dsimp only
  rw [if_neg (by decide : ¬ ('"' : Char) = 'n')]
  rw [if_neg (by decide : ¬ ('"' : Char) = 't')]
  rw [if_neg (by decide : ¬ ('"' : Char) = 'f')]
  rw [if_neg (by decide : ¬ (is_digit '"' = true ∨ ('"' : Char) = '-'))]
  rw [if_pos (rfl : ('"' : Char) = '"')]
  exact decode_json_string_closes [] h

theorem object_key_colon_strict {k : List Char} {c : Char} (rest : SV) (fuel : ℕ)
    (hk : '"' ∉ k) (hc : c ≠ ':') :
    decode_json_object (fuel + 1 + 1) ('\x7b' :: ('"' :: (k ++ '"' :: c :: rest))) =
      .ok (.err, c :: rest) := by
  simp only [decode_json_object]
  rw [if_neg (by simp : ¬ ('\x7b' : Char) ≠ '\x7b')]
  have hloop : object_loop (fuel + 1) ('"' :: (k ++ '"' :: c :: rest)) [] =
      .ok (.fail (c :: rest)) := by
    simp only [object_loop]
    rw [if_neg (by simp : ¬ ('"' :: (k ++ '"' :: c :: rest)).length = 0)]
    rw [trim_left_cons_not_ws _ (by decide)]
    dsimp only
    rw [if_neg (by decide : ¬ ('"' : Char) = '\x7d')]
    rw [decode_json_string_closes (c :: rest) hk]
    dsimp only
    rw [if_pos hc]
  rw [hloop]

/-! Claim theorems. -/

/-- C1: `decode_json` succeeds exactly when one value parse consumes the whole
input — any leftover byte, including trailing whitespace not consumed by the
value's own closing token, makes decode fail — and in particular decoding the
empty-object text followed by a trailing space fails. -/
theorem c1_decode_requires_empty_rest :
    (∀ (s : SV) (v : JsonValue),
      decode_json s = .ok (.ok v) ↔
        decode_json_value (decode_fuel s) s = .ok (.ok v, [])) ∧
    decode_json ("\x7b\x7d ".toList) = .ok .err :=
  ⟨decode_json_ok_iff, rfl⟩

/-- C2 counterexample: the claim fails on the code.  Decoding `[]` succeeds, its
encoding is `[ ] ` with a trailing space, and re-decoding that text fails because
of the zero-leftover rule; likewise a decoded Number can render in exponent
notation (`1e+06`) that the number grammar cannot re-parse, so even the
encode–decode–encode cycle breaks. -/
theorem c2_roundtrip_counterexample :
    decode_json ("[]".toList) = .ok (.ok (.arr [])) ∧
    encode_json (.arr []) = "[ ] ".toList ∧
    decode_json ("[ ] ".toList) = .ok .err ∧
    decode_json ("1000000".toList) = .ok (.ok (.num ⟨1000000, 0⟩)) ∧
    encode_json (.num ⟨1000000, 0⟩) = "1e+06".toList ∧
    decode_json ("1e+06".toList) = .ok .err :=
  ⟨rfl, rfl, rfl, rfl, rfl, rfl⟩

/-- C2 amended: for every value produced by a successful decode whose root kind is
Null, True, False or String, encoding and re-decoding returns a structurally equal
tree (strings byte for byte, as decoded strings never contain a quote), and the
encode–decode–encode cycle is idempotent on such trees.  Array and Object roots
fail re-decoding (their `] `/`\x7d ` templates end in a space the zero-leftover
rule rejects), and Number roots can fail through exponent renderings, as the
counterexample shows. -/
theorem c2_roundtrip_ntfs :
    ∀ (s : SV) (v : JsonValue),
      decode_json s = .ok (.ok v) → ntfs_root v = true →
      decode_json (encode_json v) = .ok (.ok v) ∧
      (∀ v2, decode_json (encode_json v) = .ok (.ok v2) →
        encode_json v2 = encode_json v) := by
  intro s v hdec hroot
  have hmain : decode_json (encode_json v) = .ok (.ok v) := by
    cases v with
    | null => rfl
    | jtrue => rfl
    | jfalse => rfl
    | str b =>
      have h1 : decode_json_value (decode_fuel s) s = .ok (.ok (.str b), []) :=
        (decode_json_ok_iff s _).mp hdec
      have h2 : decode_json_string (trim_left s) = .ok (.ok (.str b), []) :=
        decode_json_value_str h1
      have h3 : '"' ∉ b := decode_json_string_no_quote h2
      exact decode_json_str_redecode h3
    | num x => simp [ntfs_root] at hroot
    | arr xs => simp [ntfs_root] at hroot
    | obj ps => simp [ntfs_root] at hroot
  refine ⟨hmain, ?_⟩
  intro v2 h2
  rw [hmain] at h2
  simp only [Except.ok.injEq, JsonResult.ok.injEq] at h2
  rw [← h2]

theorem c2_roundtrip_ntfs_witness :
    decode_json ("\"hi\"".toList) = .ok (.ok (.str ['h', 'i'])) ∧
    ntfs_root (.str ['h', 'i']) = true ∧
    (decode_json (encode_json (.str ['h', 'i'])) = .ok (.ok (.str ['h', 'i'])) ∧
      (∀ v2, decode_json (encode_json (.str ['h', 'i'])) = .ok (.ok v2) →
        encode_json v2 = encode_json (.str ['h', 'i']))) :=
  ⟨rfl, rfl, c2_roundtrip_ntfs ("\"hi\"".toList) (.str ['h', 'i']) rfl rfl⟩

/-- C3: refuted on the code — the growth copy of `array_append` runs
`memmove(dst, (arr)->ptr, (arr)->len)`, transferring `len` bytes instead of
`len * element-size` bytes.  Appending an eleventh two-byte element (growth from
capacity 10 to 20) copies only ten bytes, i.e. five of the ten elements: element 5
reads back zeroed rather than intact, while elements 4 and 10 survive. -/
theorem c3_growth_copy_truncates :
    read_elem 2 (append_all 2 ⟨0, 0, []⟩ (List.replicate 11 [1, 1])) 5 = [0, 0] ∧
    read_elem 2 (append_all 2 ⟨0, 0, []⟩ (List.replicate 11 [1, 1])) 5 ≠ [1, 1] ∧
    read_elem 2 (append_all 2 ⟨0, 0, []⟩ (List.replicate 11 [1, 1])) 4 = [1, 1] ∧
    read_elem 2 (append_all 2 ⟨0, 0, []⟩ (List.replicate 11 [1, 1])) 10 = [1, 1] :=
  ⟨rfl, by decide, rfl, rfl⟩

/-- C4: refuted on the code — the guard `if (str->len == 0) ErrResult;` in
`decode_json_value` lacks its `return` and has no effect, so for every empty or
all-whitespace input the lookahead `switch (*str->ptr)` reads out of bounds
instead of returning a failure result: the model reaches the out-of-bounds
outcome for every positive fuel. -/
theorem c4_empty_lookahead_oob :
    ∀ (fuel : ℕ) (s : SV), (∀ c ∈ s, is_whitespace c = true) →
      decode_json_value (fuel + 1) s = .error .oob := by
  intro fuel s h
  simp only [decode_json_value]
  rw [trim_left_all_ws h]

theorem c4_empty_lookahead_oob_witness :
    (∀ c ∈ ([' '] : SV), is_whitespace c = true) ∧
      decode_json_value 1 [' '] = .error .oob :=
  ⟨by decide, c4_empty_lookahead_oob 0 [' '] (by decide)⟩

/-- C5: the number decoder implements exactly the positional-weight algorithm:
integer digits accumulate as `value * 10 + digit`; the fractional digit at
1-indexed position `k` contributes `digit / 10 ^ k`; a single leading `-` negates
the result; scanning stops at `,`, `]`, the closing brace or whitespace and fails
immediately on any other non-digit, non-first-dot character; `1.2` decodes to 6/5
and `-0.5` to -(1/2). -/
theorem c5_number_positional_algorithm :
    (∀ (ds fs : List Char) (c : Char) (rest : SV),
      (∀ x ∈ ds, is_digit x = true) → (∀ x ∈ fs, is_digit x = true) → num_term c →
      ∃ x, decode_json_number (ds ++ ('.' :: (fs ++ c :: rest))) =
          .ok (.ok (.num x), c :: rest) ∧
        x.toRat = int_val ds + frac_val fs) ∧
    (∀ (ds fs : List Char) (c : Char) (rest : SV),
      (∀ x ∈ ds, is_digit x = true) → (∀ x ∈ fs, is_digit x = true) → num_term c →
      ∃ x, decode_json_number ('-' :: (ds ++ ('.' :: (fs ++ c :: rest)))) =
          .ok (.ok (.num x), c :: rest) ∧
        x.toRat = -(int_val ds + frac_val fs)) ∧
    (decode_json ("1.2".toList) = .ok (.ok (.num ⟨12, 1⟩)) ∧
      (Dec.toRat ⟨12, 1⟩ : ℚ) = 6 / 5) ∧
    (decode_json ("-0.5".toList) = .ok (.ok (.num ⟨-5, 1⟩)) ∧
      (Dec.toRat ⟨-5, 1⟩ : ℚ) = -(1 / 2)) ∧
    (∀ (ds : List Char) (c : Char) (rest : SV),
      ds ≠ [] → (∀ x ∈ ds, is_digit x = true) →
      is_digit c = false → c ≠ '.' → ¬ num_term c →
      decode_json_number (ds ++ c :: rest) = .ok (.err, c :: rest)) := by
  refine ⟨?_, ?_, ⟨rfl, by norm_num [Dec.toRat]⟩, ⟨rfl, by norm_num [Dec.toRat]⟩, ?_⟩
  · intro ds fs c rest hds hfs hterm
    refine ⟨frac_extend (int_extend ⟨0, 0⟩ ds) 1 fs, ?_, number_val ds fs⟩
    cases ds with
    | nil =>
      have hl := @number_loop_full [] fs c rest hds hfs hterm
      exact decode_json_number_nonminus_ok (by decide) hl
    | cons d0 ds2 =>
      have hd0 : is_digit d0 = true := hds d0 (List.mem_cons_self d0 ds2)
      have hne : d0 ≠ '-' := by
        intro hq
        rw [hq] at hd0
        exact absurd hd0 (by decide)
      have hl := @number_loop_full (d0 :: ds2) fs c rest hds hfs hterm
      exact decode_json_number_nonminus_ok hne hl
  · intro ds fs c rest hds hfs hterm
    refine ⟨(frac_extend (int_extend ⟨0, 0⟩ ds) 1 fs).neg, ?_, ?_⟩
    · have hl := @number_loop_full ds fs c rest hds hfs hterm
      exact decode_json_number_minus_ok hl
    · rw [Dec.toRat_neg, number_val]
  · intro ds c rest hne hds hdig hdot hterm
    cases ds with
    | nil => exact absurd rfl hne
    | cons d0 ds2 =>
      have hd0 : is_digit d0 = true := hds d0 (List.mem_cons_self d0 ds2)
      have hne0 : d0 ≠ '-' := by
        intro hq
        rw [hq] at hd0
        exact absurd hd0 (by decide)
      have hl : number_loop ((d0 :: ds2) ++ c :: rest) ⟨0, 0⟩ 1 false =
          (none, c :: rest) := by
        rw [number_loop_digits_int (d0 :: ds2) _ _ _ hds]
        exact number_loop_bad rest _ 1 hdig hdot hterm
      exact decode_json_number_nonminus_err hne0 hl

theorem c5_number_positional_algorithm_witness :
    (∀ x ∈ (['3'] : List Char), is_digit x = true) ∧
    (∀ x ∈ (['5'] : List Char), is_digit x = true) ∧
    num_term ',' ∧
    (∃ x, decode_json_number (['3'] ++ ('.' :: (['5'] ++ ',' :: []))) =
        .ok (.ok (.num x), ',' :: []) ∧
      x.toRat = int_val ['3'] + frac_val ['5']) :=
  ⟨by decide, by decide, Or.inl rfl,
    c5_number_positional_algorithm.1 ['3'] ['5'] ',' [] (by decide) (by decide)
      (Or.inl rfl)⟩

/-- C6: the encoder emits the exact literal templates — an array is `[ ` then the
comma-joined encoded elements then `] ` (empty array `[ ] `), an object is the
open brace and space, the comma-joined entries `"key" : value`, then the closing
brace and space (empty object rendering with both braces and spaces) — and the
value decoded from `[1,2,3]` encodes to exactly `[ 1,2,3] `. -/
theorem c6_encoder_templates :
    (∀ xs : List JsonValue,
      encode_json (.arr xs) =
        "[ ".toList ++ join_comma (xs.map encode_json) ++ "] ".toList) ∧
    encode_json (.arr []) = "[ ] ".toList ∧
    (∀ ps : List (List Char × JsonValue),
      encode_json (.obj ps) =
        "\x7b ".toList ++
          join_comma (ps.map fun p => '"' :: p.1 ++ '"' :: " : ".toList ++ encode_json p.2) ++
          "\x7d ".toList) ∧
    encode_json (.obj []) = "\x7b \x7d ".toList ∧
    decode_json ("[1,2,3]".toList) =
      .ok (.ok (.arr [.num ⟨1, 0⟩, .num ⟨2, 0⟩, .num ⟨3, 0⟩])) ∧
    encode_json (.arr [.num ⟨1, 0⟩, .num ⟨2, 0⟩, .num ⟨3, 0⟩]) = "[ 1,2,3] ".toList := by
  refine ⟨?_, rfl, ?_, rfl, rfl, rfl⟩
  · intro xs
    show "[ ".toList ++ encode_list xs ++ "] ".toList = _
    rw [encode_list_join]
  · intro ps
    show "\x7b ".toList ++ encode_props ps ++ "\x7d ".toList = _
    rw [encode_props_join]

/-- C9: after an object key string, the very next character must be `:` with no
whitespace skipped before it — any other character there, whitespace included,
fails the whole parse — while whitespace after the consumed `:` is skipped, as the
concrete accepted and rejected inputs show. -/
theorem c9_object_colon_immediate :
    (∀ (fuel : ℕ) (k : List Char) (c : Char) (rest : SV),
      '"' ∉ k → c ≠ ':' →
      decode_json_object (fuel + 1 + 1) ('\x7b' :: ('"' :: (k ++ '"' :: c :: rest))) =
        .ok (.err, c :: rest)) ∧
    decode_json ("\x7b\"a\" :1\x7d".toList) = .ok .err ∧
    decode_json ("\x7b\"a\": 1\x7d".toList) = .ok (.ok (.obj [(['a'], .num ⟨1, 0⟩)])) :=
  ⟨fun fuel _ _ rest hk hc => object_key_colon_strict rest fuel hk hc, rfl, rfl⟩

theorem c9_object_colon_immediate_witness :
    ('"' ∉ (['a'] : List Char)) ∧ (' ' ≠ ':') ∧
    decode_json_object 2 ('\x7b' :: ('"' :: (['a'] ++ '"' :: ' ' :: ['1']))) =
      .ok (.err, ' ' :: ['1']) :=
  ⟨by decide, by decide,
    c9_object_colon_immediate.1 0 ['a'] ' ' ['1'] (by decide) (by decide)⟩

/-- C10: decoding the lone character `-` succeeds with a Number: the number loop
never runs, the accumulator stays zero, and the trailing negation produces the
negated zero, whose numeric value equals `-0 = 0` — just as the C program's
IEEE `-0.0` compares equal to zero. -/
theorem c10_lone_minus_negative_zero :
    decode_json ['-'] = .ok (.ok (.num (Dec.neg ⟨0, 0⟩))) ∧
    (Dec.neg ⟨0, 0⟩).toRat = -0 :=
  ⟨rfl, by norm_num [Dec.neg, Dec.toRat]⟩

/-- C7: for a request whose 8-byte-aligned size is below the block capacity,
`arena_alloc` succeeds given fuel beyond the chain length and returns an 8-aligned
offset to a zero-initialized region of at least `size` bytes lying entirely within
one block whose capacity is the arena's original capacity; the region is carved
from the current block exactly when the request fits there
(`used + size < cap`), and otherwise comes from a later or newly appended block of
the same capacity — no allocation straddles two blocks. -/
theorem c7_arena_alloc_within_capacity :
    ∀ (g : ℕ → ℕ) (c : ℕ) (blocks : List Block) (size fuel : ℕ),
      c % 8 = 0 →
      (∀ b ∈ blocks, b.cap = c ∧ b.used % 8 = 0 ∧ b.used ≤ b.cap) →
      align size 8 < c →
      blocks.length + 1 ≤ fuel →
      blocks ≠ [] →
      ∃ chain idx off,
        arena_alloc g fuel blocks size = some (chain, idx, off) ∧
        off % 8 = 0 ∧
        size ≤ align size 8 ∧
        (chain.getD idx (arena_new g c)).cap = c ∧
        off + align size 8 ≤ (chain.getD idx (arena_new g c)).cap ∧
        (∀ i, off ≤ i → i < off + align size 8 →
          (chain.getD idx (arena_new g c)).mem i = 0) ∧
        (∀ b0 bs, blocks = b0 :: bs → b0.used + align size 8 < c →
          idx = 0 ∧ off = b0.used) := by
  intro g c blocks
  induction blocks with
  | nil =>
    intro size fuel _ _ _ _ hne
    exact absurd rfl hne
  | cons b rest ih =>
    intro size fuel hc hinv hsize hfuel _
    obtain ⟨f, rfl⟩ : ∃ f, fuel = f + 1 := ⟨fuel - 1, by omega⟩
    obtain ⟨hbcap, hbu8, hbuc⟩ := hinv b (List.mem_cons_self b rest)
    by_cases hfit : b.used + align size 8 < b.cap
    · refine ⟨Block.mk b.cap (b.used + align size 8)
          (memset0 b.mem b.used (align size 8)) :: rest,
          0, b.used, ?_, hbu8, align_le size, ?_, ?_, ?_, ?_⟩
      · simp only [arena_alloc]
        rw [if_pos hfit]
      · exact hbcap
      · show b.used + align size 8 ≤ b.cap
        omega
      · intro i h1 h2
        show (if b.used ≤ i ∧ i < b.used + align size 8 then 0 else b.mem i) = 0
        rw [if_pos ⟨h1, h2⟩]
      · intro b0 bs heq _
        injection heq with hb0 _
        exact ⟨rfl, by rw [← hb0]⟩
    · cases rest with
      | nil =>
        have hf1 : 1 ≤ f := by
          simp only [List.length_cons, List.length_nil] at hfuel
          omega
        obtain ⟨f2, rfl⟩ : ∃ f2, f = f2 + 1 := ⟨f - 1, by omega⟩
        refine ⟨b :: [⟨c, align size 8, memset0 g 0 (align size 8)⟩], 1, 0, ?_,
          by omega, align_le size, rfl, ?_, ?_, ?_⟩
        · conv_lhs => rw [arena_alloc]
          dsimp only
          rw [if_neg hfit]
          rw [if_pos (by decide : (([] : List Block).isEmpty) = true)]
          rw [hbcap]
          rw [arena_alloc_fresh g c size f2 hc hsize]
        · show 0 + align size 8 ≤ c
          omega
        · intro i h1 h2
          show (if 0 ≤ i ∧ i < 0 + align size 8 then 0 else g i) = 0
          rw [if_pos ⟨h1, h2⟩]
        · intro b0 bs heq hlt
          injection heq with hb0 _
          rw [← hb0] at hlt
          rw [hbcap] at hfit
          exact absurd hlt hfit
      | cons r rs =>
        have hinv2 : ∀ b2 ∈ (r :: rs), b2.cap = c ∧ b2.used % 8 = 0 ∧ b2.used ≤ b2.cap :=
          fun b2 hb2 => hinv b2 (List.mem_cons_of_mem b hb2)
        have hidem : align (align size 8) 8 = align size 8 := align_eq_self (align_mod size)
        have hsize2 : align (align size 8) 8 < c := by
          rw [hidem]
          exact hsize
        have hfuel2 : (r :: rs).length + 1 ≤ f := by
          simp only [List.length_cons] at hfuel ⊢
          omega
        obtain ⟨chain, idx, off, heq, h8, _, hcap2, hns, hzero, _⟩ :=
          ih (align size 8) f hc hinv2 hsize2 hfuel2 (by simp)
        refine ⟨b :: chain, idx + 1, off, ?_, h8, align_le size, ?_, ?_, ?_, ?_⟩
        · simp only [arena_alloc]
          rw [if_neg hfit]
          rw [if_neg (by simp : ¬ (((r :: rs) : List Block).isEmpty) = true)]
          rw [heq]
        · rw [List.getD_cons_succ]
          exact hcap2
        · rw [List.getD_cons_succ]
          rw [hidem] at hns
          exact hns
        · intro i h1 h2
          rw [List.getD_cons_succ]
          refine hzero i h1 ?_
          rw [hidem]
          exact h2
        · intro b0 bs heq2 hlt
          injection heq2 with hb0 _
          rw [← hb0] at hlt
          rw [hbcap] at hfit
          exact absurd hlt hfit

theorem c7_arena_alloc_within_capacity_witness :
    ((1024 : ℕ) % 8 = 0 ∧ align 10 8 < 1024 ∧
      (∀ b ∈ [arena_new (fun _ => 7) 1024],
        b.cap = 1024 ∧ b.used % 8 = 0 ∧ b.used ≤ b.cap)) ∧
    (∃ chain idx off,
      arena_alloc (fun _ => 7) 2 [arena_new (fun _ => 7) 1024] 10 =
        some (chain, idx, off) ∧
      off % 8 = 0 ∧
      10 ≤ align 10 8 ∧
      (chain.getD idx (arena_new (fun _ => 7) 1024)).cap = 1024 ∧
      off + align 10 8 ≤ (chain.getD idx (arena_new (fun _ => 7) 1024)).cap ∧
      (∀ i, off ≤ i → i < off + align 10 8 →
        (chain.getD idx (arena_new (fun _ => 7) 1024)).mem i = 0) ∧
      (∀ b0 bs, [arena_new (fun _ => 7) 1024] = b0 :: bs →
        b0.used + align 10 8 < 1024 → idx = 0 ∧ off = b0.used)) := by
  have hinv : ∀ b ∈ [arena_new (fun _ => 7) 1024],
      b.cap = 1024 ∧ b.used % 8 = 0 ∧ b.used ≤ b.cap := by
    intro b hb
    rw [List.mem_singleton.mp hb]
    exact ⟨rfl, rfl, by decide⟩
  exact ⟨⟨by decide, by decide, hinv⟩,
    c7_arena_alloc_within_capacity (fun _ => 7) 1024 [arena_new (fun _ => 7) 1024] 10 2
      (by decide) hinv (by decide) (by decide) (by simp)⟩

/-- C8: refuted on the code — `arena_alloc` does not terminate when the aligned
request size reaches the block capacity: the fit check `used + size < cap` can
never succeed, every recursion appends another block of the very same capacity,
and so for every fuel the model still has no result — the C code recurses forever
instead of allocating an oversized block or failing explicitly. -/
theorem c8_arena_alloc_diverges_oversized :
    ∀ (g : ℕ → ℕ) (c : ℕ), c % 8 = 0 →
      ∀ (fuel size : ℕ) (blocks : List Block),
        c ≤ align size 8 → (∀ b ∈ blocks, b.cap = c) →
        arena_alloc g fuel blocks size = none := by
  intro g c hc fuel
  induction fuel with
  | zero =>
    intro size blocks _ _
    rfl
  | succ f ih =>
    intro size blocks hle hball
    cases blocks with
    | nil => rfl
    | cons b rest =>
      have hcap : b.cap = c := hball b (List.mem_cons_self b rest)
      have hnofit : ¬ (b.used + align size 8 < b.cap) := by
        rw [hcap]
        omega
      simp only [arena_alloc]
      rw [if_neg hnofit]
      have hrec : arena_alloc g f (if rest.isEmpty then [arena_new g b.cap] else rest)
          (align size 8) = none := by
        refine ih (align size 8) _ ?_ ?_
        · rw [align_eq_self (align_mod size)]
          exact hle
        · intro b2 hb2
          cases rest with
          | nil =>
            simp only [List.isEmpty_nil, if_true] at hb2
            rw [List.mem_singleton.mp hb2]
            rw [arena_new_cap g ?hc8]
            case hc8 => rw [hcap]; exact hc
            exact hcap
          | cons r rs =>
            simp only [List.isEmpty_cons, if_false] at hb2
            exact hball b2 (List.mem_cons_of_mem b hb2)
      rw [hrec]

theorem c8_arena_alloc_diverges_oversized_witness :
    (1024 : ℕ) % 8 = 0 ∧ (1024 : ℕ) ≤ align 1024 8 ∧
    (∀ b ∈ [arena_new (fun _ => 0) 1024], b.cap = 1024) ∧
    arena_alloc (fun _ => 0) 5 [arena_new (fun _ => 0) 1024] 1024 = none := by
  have hmem : ∀ b ∈ [arena_new (fun _ => 0) 1024], b.cap = 1024 := by
    intro b hb
    rw [List.mem_singleton.mp hb]
    rfl
  exact ⟨by decide, by decide, hmem,
    c8_arena_alloc_diverges_oversized (fun _ => 0) 1024 (by decide) 5 1024 _
      (by decide) hmem⟩

end JsonC
